import Mathlib

/-!
Shallow embedding of the undo/redo history manager (`useHistory` hook,
file `useHistory.ts`).

The hook owns four pieces of state: a history stack (`history`), a cursor
(`currentIndex`), an immediately-updated live value (`liveState`), and a
debounce-timer handle (`debounceTimeout`).  The timer, when armed, holds a
scheduled call `pushToHistory(newState)`; we model the handle as
`Option T`, carrying the value the pending commit will push.

`JSON.stringify` — the equality comparison used by `pushToHistory`, which
can throw on cyclic values — is modelled as a parameter
`strE : T → Option String`, where `none` models a thrown exception (caught
by the `try/catch` in `pushToHistory`).

The event-driven execution model (single-threaded UI loop) is embedded as
a step function over the operations `set`, timer firing, `undo`, `redo`.
-/

set_option autoImplicit false

namespace UseHistory

variable {T : Type}

/-- The state owned by one `useHistory` instance:
`history` / `currentIndex` / `liveState` / `debounceTimeout`. -/
structure HState (T : Type) where
  history : List T
  currentIndex : Nat
  liveState : T
  debounceTimeout : Option T
  deriving Repr, DecidableEq

/-- Construction: `useState<T[]>([initialState])`, `useState(0)`,
`useState<T>(initialState)`, `useRef<number | null>(null)`. -/
def init (initialState : T) : HState T :=
  { history := [initialState], currentIndex := 0,
    liveState := initialState, debounceTimeout := none }

/-- `pushToHistory(newState)`: compare `JSON.stringify(newState)` with
`JSON.stringify(history[currentIndex])`; on equality return; otherwise
slice `history` to `[0, currentIndex]`, push `newState`, and set the index
to the new last position.  A `none` from `strE` models `JSON.stringify`
throwing, which the `try/catch` turns into an unchanged state. -/
def pushToHistory (strE : T → Option String) (s : HState T) (newState : T) :
    HState T :=
  match strE newState with
  | none => s
  | some sNew =>
    match s.history[s.currentIndex]? with
    | none =>
      let newHistory := s.history.take (s.currentIndex + 1) ++ [newState]
      { s with history := newHistory,
               currentIndex := newHistory.length - 1 }
    | some cur =>
      match strE cur with
      | none => s
      | some sCur =>
        if sNew = sCur then s
        else
          let newHistory := s.history.take (s.currentIndex + 1) ++ [newState]
          { s with history := newHistory,
                   currentIndex := newHistory.length - 1 }

/-- `setState(action)`: compute the new value (applying the updater to the
current live state when a function was passed), update the live state
immediately, clear any pending timeout and arm a fresh one that will push
the new value. -/
def setState (s : HState T) (action : T ⊕ (T → T)) : HState T :=
  let newState :=
    match action with
    | Sum.inr f => f s.liveState
    | Sum.inl v => v
  { s with liveState := newState, debounceTimeout := some newState }

/-- The debounce timer firing: if a commit is pending, the armed callback
runs `pushToHistory` on the value it captured; the timer is consumed. -/
def fireDebounce (strE : T → Option String) (s : HState T) : HState T :=
  match s.debounceTimeout with
  | none => s
  | some v => pushToHistory strE { s with debounceTimeout := none } v

/-- `undo()`: only when `currentIndex > 0` — clear any pending timeout,
decrement the index and set the live state to `history[newIndex]`
(out-of-range reads, impossible in reachable states, model the JS
`undefined` as `default`). -/
def undo [Inhabited T] (s : HState T) : HState T :=
  if 0 < s.currentIndex then
    let newIndex := s.currentIndex - 1
    { s with debounceTimeout := none,
             currentIndex := newIndex,
             liveState := s.history.getD newIndex default }
  else s

/-- `redo()`: only when `currentIndex < history.length - 1` — clear any
pending timeout, increment the index and set the live state to
`history[newIndex]`. -/
def redo [Inhabited T] (s : HState T) : HState T :=
  if s.currentIndex < s.history.length - 1 then
    let newIndex := s.currentIndex + 1
    { s with debounceTimeout := none,
             currentIndex := newIndex,
             liveState := s.history.getD newIndex default }
  else s

/-- `canUndo = currentIndex > 0`. -/
def canUndo (s : HState T) : Bool :=
  decide (0 < s.currentIndex)

/-- `canRedo = currentIndex < history.length - 1`. -/
def canRedo (s : HState T) : Bool :=
  decide (s.currentIndex < s.history.length - 1)

/-- `read()`: the hook returns `state: liveState` to consumers. -/
def read (s : HState T) : T :=
  s.liveState

/-- The events of the single-threaded UI loop: a call to `setState`, the
debounce timer firing, a call to `undo`, a call to `redo`. -/
inductive Op (T : Type) where
  | set (action : T ⊕ (T → T))
  | fire
  | undo
  | redo

/-- One event of the UI loop. -/
def step [Inhabited T] (strE : T → Option String) (s : HState T) :
    Op T → HState T
  | Op.set a => setState s a
  | Op.fire => fireDebounce strE s
  | Op.undo => undo s
  | Op.redo => redo s

/-- Run a sequence of events. -/
def run [Inhabited T] (strE : T → Option String) (s : HState T)
    (ops : List (Op T)) : HState T :=
  ops.foldl (step strE) s

/-- A state reachable from `construct(initial)` by some event sequence. -/
def Reachable [Inhabited T] (strE : T → Option String) (v0 : T)
    (s : HState T) : Prop :=
  ∃ ops : List (Op T), run strE (init v0) ops = s

/-- A total, faithful serializer model for `Nat`, used at concrete
inputs. -/
def natStr : Nat → Option String :=
  fun n => some (toString n)

/-- A serializer model for `Nat` whose injectivity is provable: unary
encoding. -/
def unaryStr : Nat → Option String :=
  fun n => some (String.mk (List.replicate n 'a'))

/-! ### Basic lemmas -/

/-- `pushToHistory` never touches the live state. -/
theorem pushToHistory_liveState (strE : T → Option String) (s : HState T)
    (v : T) : (pushToHistory strE s v).liveState = s.liveState := by
  unfold pushToHistory
  split
  · rfl
  · split
    · rfl
    · split
      · rfl
      · split
        · rfl
        · rfl

/-- `pushToHistory` never touches the timer handle. -/
theorem pushToHistory_debounceTimeout (strE : T → Option String)
    (s : HState T) (v : T) :
    (pushToHistory strE s v).debounceTimeout = s.debounceTimeout := by
  unfold pushToHistory
  split
  · rfl
  · split
    · rfl
    · split
      · rfl
      · split
        · rfl
        · rfl

/-- When the stringify-comparison succeeds on both sides and disagrees,
`pushToHistory` truncates and appends. -/
theorem pushToHistory_of_ne (strE : T → Option String) (s : HState T)
    (v cur : T) (sv sc : String) (hget : s.history[s.currentIndex]? = some cur)
    (hv : strE v = some sv) (hc : strE cur = some sc) (hne : sv ≠ sc) :
    pushToHistory strE s v =
      { s with history := s.history.take (s.currentIndex + 1) ++ [v],
               currentIndex :=
                 (s.history.take (s.currentIndex + 1) ++ [v]).length - 1 } := by
  simp only [pushToHistory, hv, hget, hc]
  simp [hne]

/-- When the stringify-comparison succeeds on both sides and agrees,
`pushToHistory` is the identity. -/
theorem pushToHistory_of_eq (strE : T → Option String) (s : HState T)
    (v cur : T) (sv : String) (hget : s.history[s.currentIndex]? = some cur)
    (hv : strE v = some sv) (hc : strE cur = some sv) :
    pushToHistory strE s v = s := by
  simp only [pushToHistory, hv, hget, hc]
  simp

/-- Committing the value literally stored at the cursor is the identity,
whether the serializer succeeds (duplicate suppressed) or throws
(commit dropped by the catch). -/
theorem pushToHistory_self (strE : T → Option String) (s : HState T) (v : T)
    (hget : s.history[s.currentIndex]? = some v) :
    pushToHistory strE s v = s := by
  cases h1 : strE v with
  | none => simp only [pushToHistory, h1]
  | some sv => exact pushToHistory_of_eq strE s v v sv hget h1 h1

/-! ### The cursor-in-range invariant -/

/-- The cursor points at a valid index (this also forces the stack to be
non-empty). -/
def Inv (s : HState T) : Prop :=
  s.currentIndex < s.history.length

theorem inv_init (v : T) : Inv (init v) := by
  simp [Inv, init]

theorem inv_pushToHistory (strE : T → Option String) (s : HState T) (v : T)
    (h : Inv s) : Inv (pushToHistory strE s v) := by
  unfold pushToHistory
  split
  · exact h
  · split
    · simp [Inv]
    · split
      · exact h
      · split
        · exact h
        · simp [Inv]

theorem inv_step (strE : T → Option String) (op : Op T) (s : HState T)
    [Inhabited T] (h : Inv s) : Inv (step strE s op) := by
  cases op with
  | set a => exact h
  | fire =>
    simp only [step, fireDebounce]
    split
    · exact h
    · exact inv_pushToHistory strE _ _ h
  | undo =>
    simp only [step, undo]
    split
    · simp only [Inv] at h ⊢
      omega
    · exact h
  | redo =>
    simp only [step, redo]
    split
    · simp only [Inv] at h ⊢
      omega
    · exact h

theorem inv_run (strE : T → Option String) (ops : List (Op T)) (s : HState T)
    [Inhabited T] (h : Inv s) : Inv (run strE s ops) := by
  induction ops generalizing s with
  | nil => exact h
  | cons op ops ih => exact ih (step strE s op) (inv_step strE op s h)

/-! ### Frame lemmas for undo and redo -/

theorem undo_history [Inhabited T] (s : HState T) :
    (undo s).history = s.history := by
  unfold undo
  split <;> rfl

theorem redo_history [Inhabited T] (s : HState T) :
    (redo s).history = s.history := by
  unfold redo
  split <;> rfl

/-! ### Claim theorems -/

/-- Claim C7: after `set(v)` the next `read()` returns the new value
synchronously (before any timer fires), and it still does if the commit
later fires, since a commit never touches the live state; an updater `f`
is applied to the current live value. -/
theorem set_immediate_visibility (strE : T → Option String) (s : HState T)
    (v : T) (f : T → T) :
    read (setState s (Sum.inl v)) = v
    ∧ read (setState s (Sum.inr f)) = f (read s)
    ∧ read (fireDebounce strE (setState s (Sum.inl v))) = v := by
  refine ⟨rfl, rfl, ?_⟩
  show (pushToHistory strE _ v).liveState = v
  rw [pushToHistory_liveState]
  rfl

/-- Claim C8: `undo()` at cursor 0 and `redo()` at the last index change
nothing at all — in particular neither the cursor nor the live value —
and neither raises an error (both are total functions returning the
state unchanged). -/
theorem boundary_noop [Inhabited T] (s : HState T) :
    (s.currentIndex = 0 → undo s = s)
    ∧ (s.currentIndex = s.history.length - 1 → redo s = s) := by
  constructor
  · intro h0
    unfold undo
    rw [h0]
    simp
  · intro hl
    unfold redo
    rw [hl]
    simp

/-- Witness for C8 at concrete states. -/
theorem boundary_noop_witness :
    undo (⟨[3, 4], 0, 3, none⟩ : HState Nat) = ⟨[3, 4], 0, 3, none⟩
    ∧ redo (⟨[3, 4], 1, 4, none⟩ : HState Nat) = ⟨[3, 4], 1, 4, none⟩ :=
  ⟨(boundary_noop ⟨[3, 4], 0, 3, none⟩).1 (by decide),
   (boundary_noop ⟨[3, 4], 1, 4, none⟩).2 (by decide)⟩

/-- Claim C10: `undo()` and `redo()` never modify the history stack
itself — same list before and after, in every state. -/
theorem undo_redo_history_frame [Inhabited T] (s : HState T) :
    (undo s).history = s.history ∧ (redo s).history = s.history :=
  ⟨undo_history s, redo_history s⟩

/-- Claim C4: when the equality comparison throws — `JSON.stringify`
failing on the new value or on `history[currentIndex]`, modelled by
`strE` returning `none` — `pushToHistory` catches it and returns the
state entirely unchanged (stack, cursor and live value); being a total
function, it surfaces no error to the caller. -/
theorem commit_comparison_failure_noop (strE : T → Option String)
    (s : HState T) (v cur : T)
    (h : strE v = none ∨
      (s.history[s.currentIndex]? = some cur ∧ strE cur = none)) :
    pushToHistory strE s v = s := by
  cases h with
  | inl hv => simp only [pushToHistory, hv]
  | inr hcur =>
    cases h1 : strE v with
    | none => simp only [pushToHistory, h1]
    | some sv => simp only [pushToHistory, h1, hcur.1, hcur.2]

/-- Witness for C4: committing a value the serializer rejects leaves a
concrete state untouched. -/
theorem commit_comparison_failure_noop_witness :
    pushToHistory (fun _ => none) (⟨[2], 0, 2, none⟩ : HState Nat) 9 =
      ⟨[2], 0, 2, none⟩ :=
  commit_comparison_failure_noop (fun _ => none) ⟨[2], 0, 2, none⟩ 9 0
    (Or.inl rfl)

/-- Claim C2 is false as stated: `clearTimeout` sits inside the cursor
guard, so a boundary no-op `undo()` (cursor 0) leaves the pending commit
armed.  Concretely, `set(5)` then `undo()` from the initial state keeps
the pending commit of 5. -/
theorem undo_at_zero_keeps_pending_counterexample :
    (run natStr (init 0) [Op.set (Sum.inl 5), Op.undo]).debounceTimeout
      ≠ none := by
  decide

/-- Claim C2 (amended): `set()` always replaces any pending commit with
its own (so at most one pending commit exists), and `undo()`/`redo()`
cancel the pending commit whenever they move the cursor; the boundary
no-op calls (`undo()` at cursor 0, `redo()` at or past the last index)
leave the state — pending timer included — untouched. -/
theorem pending_cancellation_amended [Inhabited T] (s : HState T)
    (a : T ⊕ (T → T)) :
    (setState s a).debounceTimeout = some (read (setState s a))
    ∧ (0 < s.currentIndex → (undo s).debounceTimeout = none)
    ∧ (s.currentIndex < s.history.length - 1 →
        (redo s).debounceTimeout = none)
    ∧ (s.currentIndex = 0 → undo s = s)
    ∧ (s.history.length - 1 ≤ s.currentIndex → redo s = s) := by
  refine ⟨rfl, ?_, ?_, ?_, ?_⟩
  · intro h
    unfold undo
    simp [h]
  · intro h
    unfold redo
    simp [h]
  · intro h
    unfold undo
    rw [h]
    simp
  · intro h
    unfold redo
    simp [Nat.not_lt_of_le h]

/-- Witness for C2 (amended) at a concrete mid-stack state with a pending
commit. -/
theorem pending_cancellation_amended_witness :
    (undo (⟨[0, 1, 2], 1, 1, some 9⟩ : HState Nat)).debounceTimeout = none
    ∧ (redo (⟨[0, 1, 2], 1, 1, some 9⟩ : HState Nat)).debounceTimeout
        = none :=
  ⟨(pending_cancellation_amended ⟨[0, 1, 2], 1, 1, some 9⟩
      (Sum.inl 0)).2.1 (by decide),
   (pending_cancellation_amended ⟨[0, 1, 2], 1, 1, some 9⟩
      (Sum.inl 0)).2.2.1 (by decide)⟩

/-- The truncated prefix `history.slice(0, currentIndex + 1)` ends at the
element under the cursor. -/
theorem getLast?_take_cursor (l : List T) (c : Nat) (cur : T)
    (hget : l[c]? = some cur) : (l.take (c + 1)).getLast? = some cur := by
  have hc : c < l.length := (List.getElem?_eq_some_iff.mp hget).1
  have hlen : (l.take (c + 1)).length = c + 1 := by
    simp [List.length_take]
    omega
  rw [List.getLast?_eq_getElem?, hlen]
  simpa [List.getElem?_take_of_succ] using hget

/-- Claim C1: when the committed value differs (under the
stringify-comparison) from the entry under the cursor, `pushToHistory`
truncates the stack to the prefix `[0, cursor]`, appends the value, and
moves the cursor to the new last index, after which `canRedo` is false.
The concrete scenario: from history `[0, 1, 2]` at cursor 2, two `undo()`
calls followed by `set(3)` and the commit firing yield history `[0, 3]`
at cursor 1 with `canRedo` false. -/
theorem commit_branch_truncation (strE : T → Option String) (s : HState T)
    (v cur : T) (sv sc : String)
    (hget : s.history[s.currentIndex]? = some cur)
    (hv : strE v = some sv) (hc : strE cur = some sc) (hne : sv ≠ sc) :
    (pushToHistory strE s v).history
        = s.history.take (s.currentIndex + 1) ++ [v]
    ∧ (pushToHistory strE s v).currentIndex = s.currentIndex + 1
    ∧ canRedo (pushToHistory strE s v) = false
    ∧ (run natStr (⟨[0, 1, 2], 2, 2, none⟩ : HState Nat)
        [Op.undo, Op.undo, Op.set (Sum.inl 3), Op.fire]).history = [0, 3]
    ∧ (run natStr (⟨[0, 1, 2], 2, 2, none⟩ : HState Nat)
        [Op.undo, Op.undo, Op.set (Sum.inl 3), Op.fire]).currentIndex = 1
    ∧ canRedo (run natStr (⟨[0, 1, 2], 2, 2, none⟩ : HState Nat)
        [Op.undo, Op.undo, Op.set (Sum.inl 3), Op.fire]) = false := by
  have hcl : s.currentIndex < s.history.length :=
    (List.getElem?_eq_some_iff.mp hget).1
  have hpush := pushToHistory_of_ne strE s v cur sv sc hget hv hc hne
  have hlen : (s.history.take (s.currentIndex + 1)).length
      = s.currentIndex + 1 := by
    simp [List.length_take]
    omega
  refine ⟨by rw [hpush], ?_, ?_, by decide, by decide, by decide⟩
  · rw [hpush]
    simp [hlen]
  · rw [hpush]
    simp [canRedo, hlen]

/-- Witness for C1 over `Nat` with the decimal serializer. -/
theorem commit_branch_truncation_witness :
    (pushToHistory natStr (⟨[0, 1, 2], 0, 0, none⟩ : HState Nat) 3).history
        = ([0, 1, 2] : List Nat).take (0 + 1) ++ [3]
    ∧ (pushToHistory natStr (⟨[0, 1, 2], 0, 0, none⟩ : HState Nat)
        3).currentIndex = 0 + 1
    ∧ canRedo (pushToHistory natStr (⟨[0, 1, 2], 0, 0, none⟩ : HState Nat) 3)
        = false
    ∧ (run natStr (⟨[0, 1, 2], 2, 2, none⟩ : HState Nat)
        [Op.undo, Op.undo, Op.set (Sum.inl 3), Op.fire]).history = [0, 3]
    ∧ (run natStr (⟨[0, 1, 2], 2, 2, none⟩ : HState Nat)
        [Op.undo, Op.undo, Op.set (Sum.inl 3), Op.fire]).currentIndex = 1
    ∧ canRedo (run natStr (⟨[0, 1, 2], 2, 2, none⟩ : HState Nat)
        [Op.undo, Op.undo, Op.set (Sum.inl 3), Op.fire]) = false :=
  commit_branch_truncation natStr ⟨[0, 1, 2], 0, 0, none⟩ 3 0
    (toString (3 : Nat)) (toString (0 : Nat)) (by decide) rfl rfl (by decide)

/-- Claim C6: three `set` calls inside one quiet period, then the single
surviving timer firing, produce exactly one new history entry, holding
the last value; the earlier two scheduled commits were cancelled. -/
theorem debounce_coalescing [Inhabited T] (strE : T → Option String)
    (s : HState T) (a b c cur : T) (sc scur : String)
    (hget : s.history[s.currentIndex]? = some cur)
    (hc : strE c = some sc) (hcur : strE cur = some scur) (hne : sc ≠ scur) :
    run strE s
        [Op.set (Sum.inl a), Op.set (Sum.inl b), Op.set (Sum.inl c), Op.fire]
      = { history := s.history.take (s.currentIndex + 1) ++ [c],
          currentIndex :=
            (s.history.take (s.currentIndex + 1) ++ [c]).length - 1,
          liveState := c,
          debounceTimeout := none }
    ∧ ∀ x y z : T, run strE s
        [Op.set (Sum.inl x), Op.set (Sum.inl y), Op.set (Sum.inl z), Op.fire]
      = pushToHistory strE ⟨s.history, s.currentIndex, z, none⟩ z := by
  have h := pushToHistory_of_ne strE ⟨s.history, s.currentIndex, c, none⟩
    c cur sc scur hget hc hcur hne
  exact ⟨h, fun x y z => rfl⟩

/-- Witness for C6 at a concrete state. -/
theorem debounce_coalescing_witness :
    run natStr (⟨[0], 0, 0, none⟩ : HState Nat)
        [Op.set (Sum.inl 1), Op.set (Sum.inl 2), Op.set (Sum.inl 3), Op.fire]
      = { history := ([0] : List Nat).take (0 + 1) ++ [3],
          currentIndex := (([0] : List Nat).take (0 + 1) ++ [3]).length - 1,
          liveState := 3,
          debounceTimeout := none }
    ∧ ∀ x y z : Nat, run natStr (⟨[0], 0, 0, none⟩ : HState Nat)
        [Op.set (Sum.inl x), Op.set (Sum.inl y), Op.set (Sum.inl z), Op.fire]
      = pushToHistory natStr ⟨[0], 0, z, none⟩ z :=
  debounce_coalescing natStr ⟨[0], 0, 0, none⟩ 1 2 3 0
    (toString (3 : Nat)) (toString (0 : Nat)) rfl rfl rfl (by decide)

/-! ### No duplicate adjacent history entries -/

/-- Adjacent history entries always disagree under the serializer. -/
def AdjDistinct (strE : T → Option String) (s : HState T) : Prop :=
  s.history.Chain' (fun x y => strE x ≠ strE y)

theorem adj_pushToHistory (strE : T → Option String) (s : HState T) (v : T)
    (hinv : Inv s) (h : AdjDistinct strE s) :
    AdjDistinct strE (pushToHistory strE s v) := by
  unfold AdjDistinct at h ⊢
  cases hv : strE v with
  | none =>
    have he : pushToHistory strE s v = s := by simp only [pushToHistory, hv]
    rw [he]
    exact h
  | some sNew =>
    cases hget : s.history[s.currentIndex]? with
    | none =>
      exact absurd hinv
        (Nat.not_lt.mpr (List.getElem?_eq_none_iff.mp hget))
    | some cur =>
      cases hc : strE cur with
      | none =>
        have he : pushToHistory strE s v = s := by
          simp only [pushToHistory, hv, hget, hc]
        rw [he]
        exact h
      | some sCur =>
        by_cases hif : sNew = sCur
        · subst hif
          rw [pushToHistory_of_eq strE s v cur sNew hget hv hc]
          exact h
        · rw [pushToHistory_of_ne strE s v cur sNew sCur hget hv hc hif]
          show List.Chain' _ (s.history.take (s.currentIndex + 1) ++ [v])
          refine List.chain'_append.mpr
            ⟨h.take _, List.chain'_singleton v, ?_⟩
          intro x hx y hy
          rw [getLast?_take_cursor s.history s.currentIndex cur hget] at hx
          simp only [Option.mem_def, Option.some.injEq, List.head?_cons]
            at hx hy
          subst hx
          subst hy
          rw [hc, hv]
          exact fun hcontra =>
            hif (by injection hcontra with hh; exact hh.symm)

theorem adj_step [Inhabited T] (strE : T → Option String) (op : Op T)
    (s : HState T) (hinv : Inv s) (h : AdjDistinct strE s) :
    AdjDistinct strE (step strE s op) := by
  cases op with
  | set a => exact h
  | fire =>
    simp only [step, fireDebounce]
    split
    · exact h
    · exact adj_pushToHistory strE _ _ hinv h
  | undo =>
    simp only [step, AdjDistinct, undo_history]
    exact h
  | redo =>
    simp only [step, AdjDistinct, redo_history]
    exact h

theorem adj_run [Inhabited T] (strE : T → Option String) (ops : List (Op T))
    (s : HState T) (hinv : Inv s) (h : AdjDistinct strE s) :
    AdjDistinct strE (run strE s ops) := by
  induction ops generalizing s with
  | nil => exact h
  | cons op ops ih =>
    exact ih (step strE s op) (inv_step strE op s hinv) (adj_step strE op s hinv h)

/-- Claim C3: committing the value stored at the cursor is a no-op — the
stack and cursor are returned unchanged — and consequently no reachable
state ever holds two equal adjacent history entries. -/
theorem commit_duplicate_suppression [Inhabited T]
    (strE : T → Option String) (s : HState T) (v v0 : T) (ops : List (Op T))
    (hget : s.history[s.currentIndex]? = some v) :
    pushToHistory strE s v = s
    ∧ (run strE (init v0) ops).history.Chain' (fun x y => x ≠ y) := by
  refine ⟨pushToHistory_self strE s v hget, ?_⟩
  have h := adj_run strE ops (init v0) (inv_init v0)
    (List.chain'_singleton v0)
  exact h.imp fun x y hxy hcontra => hxy (by rw [hcontra])

/-- Witness for C3 at a concrete state and event sequence. -/
theorem commit_duplicate_suppression_witness :
    pushToHistory natStr (⟨[7], 0, 7, none⟩ : HState Nat) 7
        = ⟨[7], 0, 7, none⟩
    ∧ (run natStr (init 7)
        [Op.set (Sum.inl 8), Op.fire]).history.Chain' (fun x y => x ≠ y) :=
  commit_duplicate_suppression natStr ⟨[7], 0, 7, none⟩ 7 7
    [Op.set (Sum.inl 8), Op.fire] (by decide)

/-- Claim C5: every state reachable from `construct(initial)` has a
non-empty history stack and an in-range cursor; and whenever `undo()` or
`redo()` actually moves the cursor, the live value it installs is exactly
the history entry under the new cursor. -/
theorem reachable_state_invariants [Inhabited T] (strE : T → Option String)
    (v0 : T) (s : HState T) (h : Reachable strE v0 s) :
    s.history ≠ []
    ∧ s.currentIndex < s.history.length
    ∧ ((undo s).currentIndex ≠ s.currentIndex →
        (undo s).history[(undo s).currentIndex]?
          = some ((undo s).liveState))
    ∧ ((redo s).currentIndex ≠ s.currentIndex →
        (redo s).history[(redo s).currentIndex]?
          = some ((redo s).liveState)) := by
  obtain ⟨ops, rfl⟩ := h
  have hinv : Inv (run strE (init v0) ops) :=
    inv_run strE ops (init v0) (inv_init v0)
  set t := run strE (init v0) ops with ht
  refine ⟨?_, hinv, ?_, ?_⟩
  · intro hnil
    rw [Inv, hnil] at hinv
    exact absurd hinv (by simp)
  · intro hmoved
    by_cases hc : 0 < t.currentIndex
    · have hlt : t.currentIndex - 1 < t.history.length :=
        Nat.lt_of_le_of_lt (Nat.sub_le _ _) hinv
      simp only [undo, hc, if_true]
      rw [List.getElem?_eq_getElem hlt]
      simp [List.getD_eq_getElem?_getD, List.getElem?_eq_getElem hlt]
    · have hid : undo t = t := by simp [undo, hc]
      exact absurd (congrArg HState.currentIndex hid) hmoved
  · intro hmoved
    by_cases hc : t.currentIndex < t.history.length - 1
    · have hlt : t.currentIndex + 1 < t.history.length := by
        rw [Inv] at hinv
        omega
      simp only [redo, hc, if_true]
      rw [List.getElem?_eq_getElem hlt]
      simp [List.getD_eq_getElem?_getD, List.getElem?_eq_getElem hlt]
    · have hid : redo t = t := by simp [redo, hc]
      exact absurd (congrArg HState.currentIndex hid) hmoved

/-- Witness for C5 at the concrete reachable state after one committed
edit. -/
theorem reachable_state_invariants_witness :
    (⟨[0, 1], 1, 1, none⟩ : HState Nat).history ≠ []
    ∧ (⟨[0, 1], 1, 1, none⟩ : HState Nat).currentIndex
        < (⟨[0, 1], 1, 1, none⟩ : HState Nat).history.length
    ∧ ((undo (⟨[0, 1], 1, 1, none⟩ : HState Nat)).currentIndex
          ≠ (⟨[0, 1], 1, 1, none⟩ : HState Nat).currentIndex →
        (undo (⟨[0, 1], 1, 1, none⟩ : HState Nat)).history[
            (undo (⟨[0, 1], 1, 1, none⟩ : HState Nat)).currentIndex]?
          = some ((undo (⟨[0, 1], 1, 1, none⟩ : HState Nat)).liveState))
    ∧ ((redo (⟨[0, 1], 1, 1, none⟩ : HState Nat)).currentIndex
          ≠ (⟨[0, 1], 1, 1, none⟩ : HState Nat).currentIndex →
        (redo (⟨[0, 1], 1, 1, none⟩ : HState Nat)).history[
            (redo (⟨[0, 1], 1, 1, none⟩ : HState Nat)).currentIndex]?
          = some ((redo (⟨[0, 1], 1, 1, none⟩ : HState Nat)).liveState)) :=
  reachable_state_invariants natStr 0 ⟨[0, 1], 1, 1, none⟩
    ⟨[Op.set (Sum.inl 1), Op.fire], by decide⟩

/-! ### The undo/redo round trip -/

/-- The live value agrees with the history entry under the cursor. -/
def Synced (s : HState T) : Prop :=
  s.history[s.currentIndex]? = some s.liveState

theorem run_cons [Inhabited T] (strE : T → Option String) (s : HState T)
    (op : Op T) (ops : List (Op T)) :
    run strE s (op :: ops) = run strE (step strE s op) ops := rfl

theorem run_append [Inhabited T] (strE : T → Option String) (s : HState T)
    (l1 l2 : List (Op T)) :
    run strE s (l1 ++ l2) = run strE (run strE s l1) l2 := by
  simp [run]

theorem undo_spec [Inhabited T] (s : HState T) (hinv : Inv s)
    (hs : Synced s) :
    Inv (undo s) ∧ Synced (undo s) ∧ (undo s).history = s.history
    ∧ (undo s).currentIndex = s.currentIndex - 1 := by
  by_cases hc : 0 < s.currentIndex
  · have hlt : s.currentIndex - 1 < s.history.length :=
      Nat.lt_of_le_of_lt (Nat.sub_le _ _) hinv
    refine ⟨?_, ?_, ?_, ?_⟩
    · show Inv (undo s)
      simp only [undo, hc, if_true]
      exact hlt
    · show Synced (undo s)
      simp only [Synced, undo, hc, if_true]
      rw [List.getElem?_eq_getElem hlt]
      simp [List.getD_eq_getElem?_getD, List.getElem?_eq_getElem hlt]
    · simp [undo, hc]
    · simp [undo, hc]
  · have hid : undo s = s := by simp [undo, hc]
    rw [hid]
    exact ⟨hinv, hs, rfl, by omega⟩

theorem redo_spec [Inhabited T] (s : HState T) (hinv : Inv s)
    (hs : Synced s) :
    Inv (redo s) ∧ Synced (redo s) ∧ (redo s).history = s.history
    ∧ (redo s).currentIndex
        = min (s.currentIndex + 1) (s.history.length - 1) := by
  by_cases hc : s.currentIndex < s.history.length - 1
  · have hlt : s.currentIndex + 1 < s.history.length := by omega
    refine ⟨?_, ?_, ?_, ?_⟩
    · show Inv (redo s)
      simp only [redo, hc, if_true]
      exact hlt
    · show Synced (redo s)
      simp only [Synced, redo, hc, if_true]
      rw [List.getElem?_eq_getElem hlt]
      simp [List.getD_eq_getElem?_getD, List.getElem?_eq_getElem hlt]
    · simp [redo, hc]
    · simp only [redo, hc, if_true]
      show s.currentIndex + 1
        = min (s.currentIndex + 1) (s.history.length - 1)
      omega
  · have hid : redo s = s := by simp [redo, hc]
    rw [hid]
    refine ⟨hinv, hs, rfl, ?_⟩
    rw [Inv] at hinv
    omega

theorem run_replicate_undo [Inhabited T] (strE : T → Option String) (k : Nat)
    (s : HState T) (hinv : Inv s) (hs : Synced s) :
    Inv (run strE s (List.replicate k Op.undo))
    ∧ Synced (run strE s (List.replicate k Op.undo))
    ∧ (run strE s (List.replicate k Op.undo)).history = s.history
    ∧ (run strE s (List.replicate k Op.undo)).currentIndex
        = s.currentIndex - k := by
  induction k generalizing s with
  | zero => exact ⟨hinv, hs, rfl, rfl⟩
  | succ k ih =>
    rw [List.replicate_succ, run_cons]
    obtain ⟨h1, h2, h3, h4⟩ := undo_spec s hinv hs
    obtain ⟨g1, g2, g3, g4⟩ := ih (undo s) h1 h2
    refine ⟨g1, g2, ?_, ?_⟩
    · show (run strE (undo s) (List.replicate k Op.undo)).history = s.history
      rw [g3, h3]
    · show (run strE (undo s) (List.replicate k Op.undo)).currentIndex
        = s.currentIndex - (k + 1)
      rw [g4, h4]
      omega

theorem run_replicate_redo [Inhabited T] (strE : T → Option String) (k : Nat)
    (s : HState T) (hinv : Inv s) (hs : Synced s) :
    Inv (run strE s (List.replicate k Op.redo))
    ∧ Synced (run strE s (List.replicate k Op.redo))
    ∧ (run strE s (List.replicate k Op.redo)).history = s.history
    ∧ (run strE s (List.replicate k Op.redo)).currentIndex
        = min (s.currentIndex + k) (s.history.length - 1) := by
  induction k generalizing s with
  | zero =>
    refine ⟨hinv, hs, rfl, ?_⟩
    show s.currentIndex = min (s.currentIndex + 0) (s.history.length - 1)
    rw [Inv] at hinv
    omega
  | succ k ih =>
    rw [List.replicate_succ, run_cons]
    obtain ⟨h1, h2, h3, h4⟩ := redo_spec s hinv hs
    obtain ⟨g1, g2, g3, g4⟩ := ih (redo s) h1 h2
    refine ⟨g1, g2, ?_, ?_⟩
    · show (run strE (redo s) (List.replicate k Op.redo)).history = s.history
      rw [g3, h3]
    · show (run strE (redo s) (List.replicate k Op.redo)).currentIndex
        = min (s.currentIndex + (k + 1)) (s.history.length - 1)
      rw [g4, h4, h3]
      omega

theorem run_round_trip [Inhabited T] (strE : T → Option String) (k : Nat)
    (s : HState T) (hinv : Inv s) (hs : Synced s)
    (htop : s.currentIndex = s.history.length - 1) :
    read (run strE s
        (List.replicate k Op.undo ++ List.replicate k Op.redo)) = read s
    ∧ (run strE s
        (List.replicate k Op.undo ++ List.replicate k Op.redo)).currentIndex
      = s.currentIndex := by
  rw [run_append]
  obtain ⟨h1, h2, h3, h4⟩ := run_replicate_undo strE k s hinv hs
  obtain ⟨g1, g2, g3, g4⟩ := run_replicate_redo strE k _ h1 h2
  have hinv2 : s.currentIndex < s.history.length := hinv
  have hcur : (run strE (run strE s (List.replicate k Op.undo))
      (List.replicate k Op.redo)).currentIndex = s.currentIndex := by
    rw [g4, h4, h3]
    omega
  have hhist : (run strE (run strE s (List.replicate k Op.undo))
      (List.replicate k Op.redo)).history = s.history := by
    rw [g3, h3]
  refine ⟨?_, hcur⟩
  have hfin := g2
  rw [Synced, hcur, hhist, hs] at hfin
  injection hfin with hh
  exact hh.symm

/-- The event sequence of `N` commits: each value is `set` and its
debounce timer allowed to fire. -/
def commitOps (vs : List T) : List (Op T) :=
  vs.flatMap (fun v => [Op.set (Sum.inl v), Op.fire])

theorem run_commits [Inhabited T] (strE : T → Option String)
    (hTot : ∀ a : T, (strE a).isSome)
    (hInj : ∀ a b : T, strE a = strE b → a = b)
    (vs : List T) (s : HState T) (hinv : Inv s) (hs : Synced s)
    (htop : s.currentIndex = s.history.length - 1) :
    Inv (run strE s (commitOps vs))
    ∧ Synced (run strE s (commitOps vs))
    ∧ (run strE s (commitOps vs)).currentIndex
        = (run strE s (commitOps vs)).history.length - 1
    ∧ (run strE s (commitOps vs)).liveState = vs.getLastD s.liveState := by
  induction vs generalizing s with
  | nil => exact ⟨hinv, hs, htop, rfl⟩
  | cons v vs ih =>
    have hco : commitOps (v :: vs)
        = Op.set (Sum.inl v) :: Op.fire :: commitOps vs := by
      simp [commitOps]
    rw [hco, run_cons, run_cons]
    have hfd : step strE (step strE s (Op.set (Sum.inl v))) Op.fire
        = pushToHistory strE ⟨s.history, s.currentIndex, v, none⟩ v := rfl
    rw [hfd]
    obtain ⟨sv, hv⟩ := Option.isSome_iff_exists.mp (hTot v)
    obtain ⟨sl, hl⟩ := Option.isSome_iff_exists.mp (hTot s.liveState)
    by_cases he : sv = sl
    · subst he
      have hpush := pushToHistory_of_eq strE
        ⟨s.history, s.currentIndex, v, none⟩ v s.liveState sv hs hv hl
      rw [hpush]
      have hveq : v = s.liveState := hInj v s.liveState (by rw [hv, hl])
      have hsy : Synced (⟨s.history, s.currentIndex, v, none⟩ : HState T) := by
        show s.history[s.currentIndex]? = some v
        rw [hveq]
        exact hs
      obtain ⟨g1, g2, g3, g4⟩ :=
        ih ⟨s.history, s.currentIndex, v, none⟩ hinv hsy htop
      refine ⟨g1, g2, g3, ?_⟩
      rw [g4, List.getLastD_cons]
    · have hpush : pushToHistory strE ⟨s.history, s.currentIndex, v, none⟩ v
          = (⟨s.history.take (s.currentIndex + 1) ++ [v],
              (s.history.take (s.currentIndex + 1) ++ [v]).length - 1,
              v, none⟩ : HState T) :=
        pushToHistory_of_ne strE
          ⟨s.history, s.currentIndex, v, none⟩ v s.liveState sv sl hs hv hl he
      rw [hpush]
      have hlen : 0 < (s.history.take (s.currentIndex + 1) ++ [v]).length := by
        simp
      have hinv2 : Inv (⟨s.history.take (s.currentIndex + 1) ++ [v],
          (s.history.take (s.currentIndex + 1) ++ [v]).length - 1,
          v, none⟩ : HState T) := by
        show (s.history.take (s.currentIndex + 1) ++ [v]).length - 1
          < (s.history.take (s.currentIndex + 1) ++ [v]).length
        omega
      have hsy : Synced (⟨s.history.take (s.currentIndex + 1) ++ [v],
          (s.history.take (s.currentIndex + 1) ++ [v]).length - 1,
          v, none⟩ : HState T) := by
        show (s.history.take (s.currentIndex + 1) ++ [v])[
            (s.history.take (s.currentIndex + 1) ++ [v]).length - 1]? = some v
        have hix : (s.history.take (s.currentIndex + 1) ++ [v]).length - 1
            = (s.history.take (s.currentIndex + 1)).length := by
          simp
        rw [hix, List.getElem?_concat_length]
      obtain ⟨g1, g2, g3, g4⟩ := ih _ hinv2 hsy rfl
      refine ⟨g1, g2, g3, ?_⟩
      rw [g4, List.getLastD_cons]

/-- Claim C9: after `N ≥ 1` commits (each `set` followed by its timer
firing, with a serializer that is total and faithful to structural
equality), `undo()` taken `N-1` times then `redo()` `N-1` times returns
the cursor to where it was and `read()` to the value of the last
commit. -/
theorem undo_redo_round_trip [Inhabited T] (strE : T → Option String)
    (hTot : ∀ a : T, (strE a).isSome)
    (hInj : ∀ a b : T, strE a = strE b → a = b)
    (v0 : T) (vs : List T) (hvs : vs ≠ []) :
    read (run strE (run strE (init v0) (commitOps vs))
        (List.replicate (vs.length - 1) Op.undo
          ++ List.replicate (vs.length - 1) Op.redo))
      = vs.getLast hvs
    ∧ (run strE (run strE (init v0) (commitOps vs))
        (List.replicate (vs.length - 1) Op.undo
          ++ List.replicate (vs.length - 1) Op.redo)).currentIndex
      = (run strE (init v0) (commitOps vs)).currentIndex := by
  have h0 : Synced (init v0) := rfl
  obtain ⟨h1, h2, h3, h4⟩ :=
    run_commits strE hTot hInj vs (init v0) (inv_init v0) h0 rfl
  obtain ⟨g1, g2⟩ := run_round_trip strE (vs.length - 1) _ h1 h2 h3
  refine ⟨?_, g2⟩
  rw [g1]
  show (run strE (init v0) (commitOps vs)).liveState = vs.getLast hvs
  rw [h4, List.getLastD_eq_getLast?, List.getLast?_eq_getLast vs hvs]
  rfl

theorem unaryStr_total : ∀ a : Nat, (unaryStr a).isSome :=
  fun _ => rfl

theorem unaryStr_inj : ∀ a b : Nat, unaryStr a = unaryStr b → a = b := by
  intro a b h
  simp only [unaryStr, Option.some.injEq] at h
  have h2 := congrArg (fun s : String => s.data.length) h
  simpa using h2

/-- Witness for C9: two commits with the injective unary serializer. -/
theorem undo_redo_round_trip_witness :
    read (run unaryStr (run unaryStr (init 0) (commitOps [1, 2]))
        (List.replicate (([1, 2] : List Nat).length - 1) Op.undo
          ++ List.replicate (([1, 2] : List Nat).length - 1) Op.redo))
      = ([1, 2] : List Nat).getLast (by decide)
    ∧ (run unaryStr (run unaryStr (init 0) (commitOps [1, 2]))
        (List.replicate (([1, 2] : List Nat).length - 1) Op.undo
          ++ List.replicate (([1, 2] : List Nat).length - 1)
            Op.redo)).currentIndex
      = (run unaryStr (init 0) (commitOps [1, 2])).currentIndex :=
  undo_redo_round_trip unaryStr unaryStr_total unaryStr_inj 0 [1, 2]
    (by decide)

end UseHistory
